import Mathlib

/-!
Verification of the replicated in-memory cache (Go) core: the concurrent
LWW store, the HTTP handlers and the replication engine, shallowly embedded.
Times, durations and versions are modelled as integer nanoseconds; the Go
`time.Time` zero value becomes `none : Option Int`.
-/

/-- Cache entry (`Item` in the source): value bytes, optional absolute
expiry, LWW version (ns since epoch on the origin clock), origin node id,
tombstone (deletion) flag. Defaults mirror the Go zero values. -/
structure Item where
  Value : List Nat := []
  ExpiresAt : Option Int := none
  Version : Int := 0
  Origin : String := ""
  Tombstone : Bool := false
deriving DecidableEq

/-- `Item.expired`: true when the expiry is set (the Go `IsZero` check) and
`now` is strictly after it. -/
def Item.expired (it : Item) (now : Int) : Bool :=
  match it.ExpiresAt with
  | none => false
  | some t => decide (t < now)

/-- Wire message for one Entry mutation (`SyncMsg` in the source). -/
structure SyncMsg where
  Op : String := ""
  Key : String := ""
  Value : List Nat := []
  ExpiresAt : Option Int := none
  Version : Int := 0
  Origin : String := ""
deriving DecidableEq

/-- The in-memory map of the `Store`, as an association list keyed by
string (the Go map holds at most one entry per key). -/
abbrev Store := List (String × Item)

/-- The LWW guard of `Store.Put`: the incoming Item wins when its Version
is strictly greater, or the Versions are equal and its Origin is
lexicographically strictly greater. -/
def lwwGt (incoming cur : Item) : Prop :=
  cur.Version < incoming.Version ∨
    (incoming.Version = cur.Version ∧ cur.Origin < incoming.Origin)

instance (incoming cur : Item) : Decidable (lwwGt incoming cur) :=
  inferInstanceAs (Decidable (_ ∨ _))

/-- `Store.Get`: plain map lookup, no expiry or tombstone filtering. -/
def Store.Get : Store → String → Option Item
  | [], _ => none
  | (k, it) :: rest, key => if k = key then some it else Store.Get rest key

/-- `Store.Put`: last-write-wins merge. A missing key stores the incoming
Item unconditionally; otherwise the incoming Item replaces the current one
iff it is strictly greater in `(Version, Origin)` order. -/
def Store.Put : Store → String → Item → Store × Bool
  | [], key, incoming => ([(key, incoming)], true)
  | (k, cur) :: rest, key, incoming =>
    if k = key then
      if lwwGt incoming cur then ((k, incoming) :: rest, true)
      else ((k, cur) :: rest, false)
    else
      ((k, cur) :: (Store.Put rest key incoming).1, (Store.Put rest key incoming).2)

/-- `Store.HardDeleteExpired`: full-map sweep removing tombstones older
than `tombstoneTTL` (by their Version timestamp) and expired live entries. -/
def Store.HardDeleteExpired (s : Store) (now tombstoneTTL : Int) : Store :=
  s.filter (fun kv =>
    !((kv.2.Tombstone && decide (tombstoneTTL < now - kv.2.Version)) ||
      (!kv.2.Tombstone && kv.2.expired now)))

/-- The keys currently present in a store. -/
def keys (s : Store) : List String := s.map Prod.fst

/-- One delivery attempt's outcome, as collected from the result channel
of `Node.Replicate`. -/
inductive Res
  | ok
  | fail (msg : String)
deriving DecidableEq

/-- The errors `Node.Replicate` can surface. -/
inductive RepError
  | noPeers
  | timeout (target total acked : Nat)
  | peer (msg : String)
deriving DecidableEq

/-- The error strings built by `Node.Replicate`. -/
def RepError.message : RepError → String
  | RepError.noPeers => "no peers available"
  | RepError.timeout target total acked =>
      "timeout waiting for " ++ toString target ++ "/" ++ toString total ++
        " acks (got " ++ toString acked ++ ")"
  | RepError.peer m => m

/-- The deterministic prefix of `Node.Replicate`: the empty-peer-set check
and the target computation, before any delivery is dispatched. -/
inductive RepSetup
  | fail (acked total : Nat) (e : RepError)
  | done (acked total : Nat)
  | dispatch (target total : Nat)
deriving DecidableEq

/-- Peer-count check and target clamping of `Node.Replicate`, line for
line: `target := min`, overridden by `total` when `full`, then clamped
below by 0 and above by `total`. -/
def replicateSetup (numPeers : Nat) (min : Int) (full : Bool) : RepSetup :=
  if numPeers = 0 then
    if 0 < min ∨ full = true then RepSetup.fail 0 0 RepError.noPeers
    else RepSetup.done 0 0
  else
    let target0 : Int := if full then (numPeers : Int) else min
    let target1 : Int := if target0 < 0 then 0 else target0
    let target2 : Int := if (numPeers : Int) < target1 then (numPeers : Int) else target1
    RepSetup.dispatch target2.toNat numPeers

/-- The acknowledgement-collection loop of `Node.Replicate`: consumes
delivery results in arrival order while `acked < target`; an exhausted
list is the deadline (`ctx.Done`) firing, which surfaces the timeout error
only when no delivery error was collected first. -/
def collectLoop (target total : Nat) : Nat → Option RepError → List Res → Nat × Option RepError
  | acked, firstErr, [] =>
    if acked < target then
      (acked, some (firstErr.getD (RepError.timeout target total acked)))
    else (acked, firstErr)
  | acked, firstErr, r :: rest =>
    if acked < target then
      match r with
      | Res.ok => collectLoop target total (acked + 1) firstErr rest
      | Res.fail e =>
          collectLoop target total acked (some (firstErr.getD (RepError.peer e))) rest
    else (acked, firstErr)

/-- `Node.Replicate`, with the nondeterministic delivery outcomes supplied
as the list of results in their channel arrival order (results past the
deadline are absent from the list). Returns `(acked, total, err)`. -/
def Replicate (numPeers : Nat) (min : Int) (full : Bool) (arrivals : List Res) :
    Nat × Nat × Option RepError :=
  match replicateSetup numPeers min full with
  | RepSetup.fail a t e => (a, t, some e)
  | RepSetup.done a t => (a, t, none)
  | RepSetup.dispatch target total =>
    ((collectLoop target total 0 none arrivals).1, total,
      (collectLoop target total 0 none arrivals).2)

/-- First failed delivery in a result sequence, as a `RepError`. -/
def firstFail : List Res → Option RepError
  | [] => none
  | Res.ok :: rest => firstFail rest
  | Res.fail e :: _ => some (RepError.peer e)

/-- The prefix of the arrival sequence that the collection loop actually
consumes before reaching `target` acknowledgements. -/
def consumed (target : Nat) : Nat → List Res → List Res
  | _, [] => []
  | acked, r :: rest =>
    if acked < target then
      r :: consumed target (match r with | Res.ok => acked + 1 | Res.fail _ => acked) rest
    else []

/-- Observable side effects of a handler: local store writes and outbound
replication calls. -/
inductive Effect
  | storePut (key : String) (it : Item)
  | replicateCall (msg : SyncMsg) (minAcks : Int) (full : Bool)
deriving DecidableEq

/-- Outcome of one HTTP handler invocation: resulting store, HTTP status,
and the side effects issued, in order. -/
structure HandlerResult where
  store : Store
  status : Nat
  effects : List Effect := []
deriving DecidableEq

/-- `Node.handleGet`: local read applying logical visibility — a missing,
tombstoned or expired entry reads as 404; otherwise 200 with the value. -/
def handleGet (s : Store) (key : String) (now : Int) : Nat × Option (List Nat) :=
  match Store.Get s key with
  | none => (404, none)
  | some it =>
    if it.Tombstone || it.expired now then (404, none) else (200, some it.Value)

/-- `Node.handlePut`: builds the Item from the body, node clock and TTL,
applies it locally, answers 409 when the local LWW apply rejects it, and
otherwise replicates and answers 502 (replication error) or 201. -/
def handlePut (s : Store) (key : String) (body : List Nat) (ttl : Int) (minRep : Int)
    (full : Bool) (nodeId : String) (now : Int) (numPeers : Nat) (arrivals : List Res) :
    HandlerResult :=
  let item : Item :=
    { Value := body, Version := now, Origin := nodeId,
      ExpiresAt := if 0 < ttl then some (now + ttl) else none }
  if (Store.Put s key item).2 = false then
    { store := (Store.Put s key item).1, status := 409,
      effects := [Effect.storePut key item] }
  else
    let msg : SyncMsg :=
      { Op := "set", Key := key, Value := body, ExpiresAt := item.ExpiresAt,
        Version := now, Origin := nodeId }
    let eff := [Effect.storePut key item, Effect.replicateCall msg minRep full]
    match (Replicate numPeers minRep full arrivals).2.2 with
    | some _ => { store := (Store.Put s key item).1, status := 502, effects := eff }
    | none => { store := (Store.Put s key item).1, status := 201, effects := eff }

/-- `Node.handleDelete`: stores a tombstone Item (ignoring the `applied`
result of the local Put) and always replicates, answering 502 on a
replication error and 204 otherwise. -/
def handleDelete (s : Store) (key : String) (minRep : Int) (full : Bool)
    (nodeId : String) (now : Int) (numPeers : Nat) (arrivals : List Res) : HandlerResult :=
  let it : Item := { Version := now, Origin := nodeId, Tombstone := true }
  let msg : SyncMsg := { Op := "del", Key := key, Version := now, Origin := nodeId }
  let eff := [Effect.storePut key it, Effect.replicateCall msg minRep full]
  match (Replicate numPeers minRep full arrivals).2.2 with
  | some _ => { store := (Store.Put s key it).1, status := 502, effects := eff }
  | none => { store := (Store.Put s key it).1, status := 204, effects := eff }

/-- `Node.handleSync`: translates an inbound SyncMsg into an Item and
applies it with a single `Store.Put`; unknown operations answer 400 with
no state change. No replication call is ever issued. -/
def handleSync (s : Store) (msg : SyncMsg) : HandlerResult :=
  if msg.Op = "set" then
    let item : Item :=
      { Value := msg.Value, Version := msg.Version, Origin := msg.Origin,
        ExpiresAt := msg.ExpiresAt }
    { store := (Store.Put s msg.Key item).1, status := 204,
      effects := [Effect.storePut msg.Key item] }
  else if msg.Op = "del" then
    let item : Item := { Version := msg.Version, Origin := msg.Origin, Tombstone := true }
    { store := (Store.Put s msg.Key item).1, status := 204,
      effects := [Effect.storePut msg.Key item] }
  else
    { store := s, status := 400 }

/-- Fold a sequence of incoming Items for one key into a store, in the
order they are delivered (each delivery is one `Store.Put`). -/
def applyAll (key : String) (l : List Item) (s : Store) : Store :=
  l.foldl (fun acc i => (Store.Put acc key i).1) s

/-! ### Order lemmas for the LWW guard -/

lemma lwwGt_irrefl (i : Item) : ¬ lwwGt i i := by
  simp [lwwGt]

lemma lwwGt_trans {a b c : Item} (h1 : lwwGt a b) (h2 : lwwGt b c) : lwwGt a c := by
  rcases h1 with h1 | ⟨hv1, ho1⟩ <;> rcases h2 with h2 | ⟨hv2, ho2⟩
  · exact Or.inl (h2.trans h1)
  · exact Or.inl (hv2 ▸ h1)
  · exact Or.inl (hv1.symm ▸ h2)
  · exact Or.inr ⟨hv1.trans hv2, ho2.trans ho1⟩

lemma lwwGt_asymm {a b : Item} (h : lwwGt a b) : ¬ lwwGt b a := by
  intro h2
  exact lwwGt_irrefl a (lwwGt_trans h h2)

lemma lwwGt_total {a b : Item}
    (h : (a.Version, a.Origin) ≠ (b.Version, b.Origin)) : lwwGt a b ∨ lwwGt b a := by
  rcases lt_trichotomy a.Version b.Version with hv | hv | hv
  · exact Or.inr (Or.inl hv)
  · rcases lt_trichotomy a.Origin b.Origin with ho | ho | ho
    · exact Or.inr (Or.inr ⟨hv.symm, ho⟩)
    · exact absurd (by rw [hv, ho]) h
    · exact Or.inl (Or.inr ⟨hv, ho⟩)
  · exact Or.inl (Or.inl hv)

/-! ### Store lemmas -/

lemma Put_of_get_none {s : Store} {key : String} (i : Item)
    (h : Store.Get s key = none) :
    Store.Put s key i = (s ++ [(key, i)], true) := by
  induction s with
  | nil => simp [Store.Put]
  | cons hd tl ih =>
    obtain ⟨k, cur⟩ := hd
    by_cases hk : k = key
    · simp [Store.Get, hk] at h
    · simp only [Store.Get, hk, if_neg, ite_false] at h
      simp [Store.Put, hk, ih h]

lemma Get_append_of_none {s : Store} {key : String} (t : Store)
    (h : Store.Get s key = none) :
    Store.Get (s ++ t) key = Store.Get t key := by
  induction s with
  | nil => simp
  | cons hd tl ih =>
    obtain ⟨k, cur⟩ := hd
    by_cases hk : k = key
    · simp [Store.Get, hk] at h
    · simp only [Store.Get, hk, ite_false] at h
      simp [Store.Get, hk, ih h]

lemma Put_get_self {s : Store} {key : String} {i : Item}
    (h : (Store.Put s key i).2 = true) :
    Store.Get (Store.Put s key i).1 key = some i := by
  induction s with
  | nil => simp [Store.Put, Store.Get]
  | cons hd tl ih =>
    obtain ⟨k, cur⟩ := hd
    by_cases hk : k = key
    · by_cases hg : lwwGt i cur
      · simp [Store.Put, hk, hg, Store.Get]
      · simp [Store.Put, hk, hg] at h
    · simp only [Store.Put, hk, ite_false] at h ⊢
      simpa [Store.Get, hk] using ih h

lemma Put_snd_false_eq {s : Store} {key : String} {i : Item}
    (h : (Store.Put s key i).2 = false) : (Store.Put s key i).1 = s := by
  induction s with
  | nil => simp [Store.Put] at h
  | cons hd tl ih =>
    obtain ⟨k, cur⟩ := hd
    by_cases hk : k = key
    · by_cases hg : lwwGt i cur
      · simp [Store.Put, hk, hg] at h
      · simp [Store.Put, hk, hg]
    · simp only [Store.Put, hk, ite_false] at h ⊢
      simp [ih h]

lemma Put_snd_iff {s : Store} {key : String} {cur i : Item}
    (h : Store.Get s key = some cur) :
    ((Store.Put s key i).2 = true ↔ lwwGt i cur) := by
  induction s with
  | nil => simp [Store.Get] at h
  | cons hd tl ih =>
    obtain ⟨k, c⟩ := hd
    by_cases hk : k = key
    · simp only [Store.Get, hk, ite_true] at h
      injection h with h2
      subst h2
      by_cases hg : lwwGt i c <;> simp [Store.Put, hk, hg]
    · simp only [Store.Get, hk, ite_false] at h
      simp only [Store.Put, hk, ite_false]
      exact ih h

lemma Put_snd_false_iff {s : Store} {key : String} {cur i : Item}
    (h : Store.Get s key = some cur) :
    ((Store.Put s key i).2 = false ↔ ¬ lwwGt i cur) := by
  rw [← @Put_snd_iff s key cur i h]
  cases hb : (Store.Put s key i).2 <;> simp [hb]

lemma Get_Put_cases (s : Store) (key : String) (i : Item) :
    Store.Get (Store.Put s key i).1 key = some i ∨
      (Store.Get (Store.Put s key i).1 key = Store.Get s key ∧
        (Store.Put s key i).2 = false) := by
  cases hb : (Store.Put s key i).2
  · exact Or.inr ⟨by rw [Put_snd_false_eq hb], rfl⟩
  · exact Or.inl (Put_get_self hb)

lemma keys_Put (s : Store) (key : String) (i : Item) :
    ∀ x, x ∈ keys (Store.Put s key i).1 → x = key ∨ x ∈ keys s := by
  induction s with
  | nil => intro x hx; simp [Store.Put, keys] at hx; exact Or.inl hx
  | cons hd tl ih =>
    obtain ⟨k, cur⟩ := hd
    intro x hx
    by_cases hk : k = key
    · by_cases hg : lwwGt i cur <;> simp [Store.Put, hk, hg, keys] at hx <;>
        rcases hx with hx | hx <;> simp [keys, hx, hk]
    · simp only [Store.Put, hk, ite_false, keys, List.map_cons, List.mem_cons] at hx
      rcases hx with hx | hx
      · exact Or.inr (by simp [keys, hx])
      · rcases ih x hx with h | h
        · exact Or.inl h
        · exact Or.inr (by simp [keys] at h ⊢; exact Or.inr h)

lemma keys_nodup_Put {s : Store} (key : String) (i : Item)
    (h : (keys s).Nodup) : (keys (Store.Put s key i).1).Nodup := by
  induction s with
  | nil => simp [Store.Put, keys]
  | cons hd tl ih =>
    obtain ⟨k, cur⟩ := hd
    have h2 : k ∉ keys tl ∧ (keys tl).Nodup := by
      simp only [keys, List.map_cons, List.nodup_cons] at h
      exact h
    by_cases hk : k = key
    · have hkeys : keys (Store.Put ((k, cur) :: tl) key i).1 = k :: keys tl := by
        by_cases hg : lwwGt i cur <;> simp [Store.Put, hk, hg, keys]
      rw [hkeys, List.nodup_cons]
      exact h2
    · have hkeys : keys (Store.Put ((k, cur) :: tl) key i).1 =
          k :: keys (Store.Put tl key i).1 := by
        simp [Store.Put, hk, keys]
      rw [hkeys, List.nodup_cons]
      refine ⟨fun hmem => ?_, ih h2.2⟩
      rcases keys_Put tl key i k hmem with rfl | hmem2
      · exact hk rfl
      · exact h2.1 hmem2

lemma keys_nodup_HardDeleteExpired {s : Store} (now ttl : Int)
    (h : (keys s).Nodup) : (keys (Store.HardDeleteExpired s now ttl)).Nodup := by
  have hsub : List.Sublist (Store.HardDeleteExpired s now ttl) s :=
    List.filter_sublist s
  exact List.Nodup.sublist (hsub.map Prod.fst) h

lemma Put_Put_comm_aux (key : String) {i1 i2 : Item}
    (hne : (i1.Version, i1.Origin) ≠ (i2.Version, i2.Origin)) :
    ∀ s : Store,
      (Store.Put (Store.Put s key i1).1 key i2).1 =
        (Store.Put (Store.Put s key i2).1 key i1).1 := by
  intro s
  induction s with
  | nil =>
    simp only [Store.Put, ite_true]
    rcases lwwGt_total hne with h | h
    · simp [Store.Put, h, lwwGt_asymm h]
    · simp [Store.Put, h, lwwGt_asymm h]
  | cons hd tl ih =>
    obtain ⟨k, cur⟩ := hd
    by_cases hk : k = key
    · subst hk
      by_cases h1 : lwwGt i1 cur <;> by_cases h2 : lwwGt i2 cur
      · simp only [Store.Put, ite_true, h1, h2]
        rcases lwwGt_total hne with h | h
        · simp [Store.Put, h, lwwGt_asymm h]
        · simp [Store.Put, h, lwwGt_asymm h]
      · have hn21 : ¬ lwwGt i2 i1 := fun hcon => h2 (lwwGt_trans hcon h1)
        simp [Store.Put, h1, h2, hn21]
      · have hn12 : ¬ lwwGt i1 i2 := fun hcon => h1 (lwwGt_trans hcon h2)
        simp [Store.Put, h1, h2, hn12]
      · simp [Store.Put, h1, h2]
    · simp only [Store.Put, hk, ite_false]
      simp [Store.Put, hk, ih]

lemma Get_Put_none_survivor {s : Store} (key : String) {i1 i2 : Item}
    (h : Store.Get s key = none) :
    Store.Get (Store.Put (Store.Put s key i1).1 key i2).1 key =
      some (if lwwGt i2 i1 then i2 else i1) := by
  have h1 := Put_of_get_none i1 h
  rw [h1]
  have hget1 : Store.Get (s ++ [(key, i1)]) key = some i1 := by
    rw [Get_append_of_none _ h]; simp [Store.Get]
  by_cases hg : lwwGt i2 i1
  · have happ : (Store.Put (s ++ [(key, i1)]) key i2).2 = true :=
      (Put_snd_iff hget1).mpr hg
    rw [Put_get_self happ, if_pos hg]
  · have hrej : (Store.Put (s ++ [(key, i1)]) key i2).2 = false :=
      (Put_snd_false_iff hget1).mpr hg
    rw [Put_snd_false_eq hrej, hget1, if_neg hg]

/-! ### Collection-loop lemmas -/

lemma collectLoop_fst_le (target total : Nat) :
    ∀ (arrivals : List Res) (acked : Nat) (fe : Option RepError),
      acked ≤ target → (collectLoop target total acked fe arrivals).1 ≤ target := by
  intro arrivals
  induction arrivals with
  | nil =>
    intro acked fe h
    by_cases hlt : acked < target <;> simp [collectLoop, hlt, h]
  | cons r rest ih =>
    intro acked fe h
    by_cases hlt : acked < target
    · cases r with
      | ok => simpa [collectLoop, hlt] using ih (acked + 1) fe hlt
      | fail e =>
          simpa [collectLoop, hlt] using
            ih acked (some (fe.getD (RepError.peer e))) h
    · simp [collectLoop, hlt, h]

lemma collectLoop_err_some (target total : Nat) :
    ∀ (arrivals : List Res) (acked : Nat) (e : RepError),
      target ≤ (collectLoop target total acked (some e) arrivals).1 →
      (collectLoop target total acked (some e) arrivals).2 = some e := by
  intro arrivals
  induction arrivals with
  | nil =>
    intro acked e h
    by_cases hlt : acked < target
    · simp only [collectLoop, hlt, ite_true] at h
      omega
    · simp [collectLoop, hlt]
  | cons r rest ih =>
    intro acked e h
    by_cases hlt : acked < target
    · cases r with
      | ok =>
          simp only [collectLoop, hlt, ite_true] at h ⊢
          exact ih (acked + 1) e h
      | fail e2 =>
          simp only [collectLoop, hlt, ite_true, Option.getD_some] at h ⊢
          exact ih acked e h
    · simp [collectLoop, hlt]

lemma collectLoop_err_none (target total : Nat) :
    ∀ (arrivals : List Res) (acked : Nat),
      target ≤ (collectLoop target total acked none arrivals).1 →
      (collectLoop target total acked none arrivals).2 =
        firstFail (consumed target acked arrivals) := by
  intro arrivals
  induction arrivals with
  | nil =>
    intro acked h
    by_cases hlt : acked < target
    · simp only [collectLoop, hlt, ite_true] at h
      omega
    · simp [collectLoop, hlt, consumed, firstFail]
  | cons r rest ih =>
    intro acked h
    by_cases hlt : acked < target
    · cases r with
      | ok =>
          simp only [collectLoop, hlt, ite_true] at h ⊢
          simpa [consumed, hlt, firstFail] using ih (acked + 1) h
      | fail e =>
          simp only [collectLoop, hlt, ite_true, Option.getD_none] at h ⊢
          simp only [consumed, hlt, ite_true, firstFail]
          exact collectLoop_err_some target total rest acked (RepError.peer e) h
    · simp [collectLoop, hlt, consumed, firstFail]

/-! ### Convergence lemmas -/

lemma applyAll_stays {key : String} {m : Item} :
    ∀ (l : List Item), (∀ i ∈ l, i = m ∨ lwwGt m i) →
      ∀ s : Store, Store.Get s key = some m →
        Store.Get (applyAll key l s) key = some m := by
  intro l
  induction l with
  | nil => intro _ s hs; simpa [applyAll] using hs
  | cons i rest ih =>
    intro hl s hs
    have hrej : ¬ lwwGt i m := by
      rcases hl i (by simp) with rfl | hlt
      · exact lwwGt_irrefl _
      · exact lwwGt_asymm hlt
    have h2 : (Store.Put s key i).2 = false := (Put_snd_false_iff hs).mpr hrej
    have h1 : (Store.Put s key i).1 = s := Put_snd_false_eq h2
    have hfold : applyAll key (i :: rest) s = applyAll key rest s := by
      simp [applyAll, h1]
    rw [hfold]
    exact ih (fun j hj => hl j (by simp [hj])) s hs

lemma applyAll_reaches {key : String} {m : Item} :
    ∀ (l : List Item), m ∈ l → (∀ i ∈ l, i = m ∨ lwwGt m i) →
      ∀ s : Store, (∀ c, Store.Get s key = some c → c = m ∨ lwwGt m c) →
        Store.Get (applyAll key l s) key = some m := by
  intro l
  induction l with
  | nil => intro hm; simp at hm
  | cons i rest ih =>
    intro hm hl s hs
    have hfold : applyAll key (i :: rest) s = applyAll key rest (Store.Put s key i).1 := by
      simp [applyAll]
    by_cases hmem : m ∈ rest
    · rw [hfold]
      apply ih hmem (fun j hj => hl j (by simp [hj]))
      intro c hc
      rcases Get_Put_cases s key i with hcase | ⟨heq, _⟩
      · rw [hcase] at hc
        injection hc with hc2
        exact hc2 ▸ hl i (by simp)
      · rw [heq] at hc
        exact hs c hc
    · have hmi : m = i := by
        rcases List.mem_cons.mp hm with h | h
        · exact h
        · exact absurd h hmem
      subst hmi
      have hput : Store.Get (Store.Put s key m).1 key = some m := by
        cases hGet : Store.Get s key with
        | none =>
            rw [Put_of_get_none m hGet]
            rw [Get_append_of_none _ hGet]
            simp [Store.Get]
        | some c =>
            rcases hs c hGet with rfl | hlt
            · have h2 : (Store.Put s key c).2 = false :=
                (Put_snd_false_iff hGet).mpr (lwwGt_irrefl c)
              rw [Put_snd_false_eq h2, hGet]
            · exact Put_get_self ((Put_snd_iff hGet).mpr hlt)
      rw [hfold]
      exact applyAll_stays rest (fun j hj => hl j (by simp [hj])) _ hput

/-! ### Claim theorems -/

/-- C3: `Store.Put` stores the incoming Item and returns true when no
current Entry exists for the key; otherwise it applies (returns true and
stores the incoming Item) iff the incoming `(Version, Origin)` pair is
strictly greater than the current one, and in all other cases leaves the
store unchanged and returns false — in particular replaying the stored
Entry never mutates state and never reports applied. -/
theorem Put_lww_spec (s : Store) (key : String) (incoming : Item) :
    (Store.Get s key = none →
      (Store.Put s key incoming).2 = true ∧
      Store.Get (Store.Put s key incoming).1 key = some incoming)
  ∧ (∀ cur, Store.Get s key = some cur →
      ((Store.Put s key incoming).2 = true ↔ lwwGt incoming cur)
      ∧ (lwwGt incoming cur →
          Store.Get (Store.Put s key incoming).1 key = some incoming)
      ∧ (¬ lwwGt incoming cur → Store.Put s key incoming = (s, false)))
  ∧ (∀ cur, Store.Get s key = some cur → Store.Put s key cur = (s, false)) := by
  refine ⟨?_, ?_, ?_⟩
  · intro h
    have hput := Put_of_get_none incoming h
    exact ⟨by rw [hput], Put_get_self (by rw [hput])⟩
  · intro cur h
    refine ⟨Put_snd_iff h, ?_, ?_⟩
    · intro hg
      exact Put_get_self ((Put_snd_iff h).mpr hg)
    · intro hg
      have hf : (Store.Put s key incoming).2 = false := (Put_snd_false_iff h).mpr hg
      exact Prod.ext_iff.mpr ⟨Put_snd_false_eq hf, hf⟩
  · intro cur h
    have hf : (Store.Put s key cur).2 = false :=
      (Put_snd_false_iff h).mpr (lwwGt_irrefl cur)
    exact Prod.ext_iff.mpr ⟨Put_snd_false_eq hf, hf⟩

theorem Put_lww_spec_witness :
    Store.Get ([] : Store) "k" = none ∧
    (Store.Put ([] : Store) "k" { Version := 1, Origin := "A" }).2 = true :=
  ⟨rfl, ((Put_lww_spec [] "k" { Version := 1, Origin := "A" }).1 rfl).1⟩

/-- C4 (counterexample): two writes to the same key with identical
`(Version, Origin)` pairs but different values do not commute — the final
store depends on application order, refuting the claim as stated. -/
theorem Put_comm_cex :
    (Store.Put (Store.Put ([] : Store) "k"
        { Value := [0], Version := 1, Origin := "A" }).1 "k"
        { Value := [1], Version := 1, Origin := "A" }).1 ≠
      (Store.Put (Store.Put ([] : Store) "k"
        { Value := [1], Version := 1, Origin := "A" }).1 "k"
        { Value := [0], Version := 1, Origin := "A" }).1 := by
  simp [Store.Put, lwwGt, lt_self_iff_false]

/-- C4 (amended): for every key and every pair of writes whose
`(Version, Origin)` pairs are distinct, applying the two `Store.Put` calls
in either order to the same initial store yields the same final state, and
when the key had no current Entry the surviving Entry is the one with the
greater `(Version, Origin)` pair. -/
theorem Put_comm_distinct (s : Store) (key : String) (i1 i2 : Item)
    (hne : (i1.Version, i1.Origin) ≠ (i2.Version, i2.Origin)) :
    (Store.Put (Store.Put s key i1).1 key i2).1 =
      (Store.Put (Store.Put s key i2).1 key i1).1
  ∧ (Store.Get s key = none →
      Store.Get (Store.Put (Store.Put s key i1).1 key i2).1 key =
        some (if lwwGt i2 i1 then i2 else i1)) :=
  ⟨Put_Put_comm_aux key hne s, fun h => Get_Put_none_survivor key h⟩

theorem Put_comm_distinct_witness :
    (((1 : Int), ("A" : String)) ≠ ((2 : Int), ("A" : String))) ∧
    (Store.Put (Store.Put ([] : Store) "k" { Version := 1, Origin := "A" }).1 "k"
        { Version := 2, Origin := "A" }).1 =
      (Store.Put (Store.Put ([] : Store) "k" { Version := 2, Origin := "A" }).1 "k"
        { Version := 1, Origin := "A" }).1 :=
  ⟨by decide,
    (Put_comm_distinct [] "k" { Version := 1, Origin := "A" }
      { Version := 2, Origin := "A" } (by decide)).1⟩

/-- C5: `Store.Get` returns the stored Entry as-is without filtering,
while the read boundary (`handleGet`) applies logical visibility: a
missing, tombstoned or expired entry reads as 404 immediately
(independently of any sweep), otherwise 200 with the Entry's value. -/
theorem handleGet_visibility (s : Store) (key : String) (now : Int) :
    (Store.Get s key = none → handleGet s key now = (404, none))
  ∧ (∀ it, Store.Get s key = some it →
      ((it.Tombstone = true ∨ it.expired now = true) →
        handleGet s key now = (404, none))
      ∧ (it.Tombstone = false → it.expired now = false →
        handleGet s key now = (200, some it.Value)))
  ∧ (∀ it, (Store.Put s key it).2 = true →
      Store.Get (Store.Put s key it).1 key = some it) := by
  refine ⟨?_, ?_, ?_⟩
  · intro h; simp [handleGet, h]
  · intro it h
    constructor
    · rintro (hv | hv) <;> simp [handleGet, h, hv]
    · intro h1 h2; simp [handleGet, h, h1, h2]
  · intro it h
    exact Put_get_self h

theorem handleGet_visibility_witness :
    Store.Get [("k", { Version := 1, Origin := "A", Tombstone := true })] "k" =
      some { Version := 1, Origin := "A", Tombstone := true } ∧
    handleGet [("k", { Version := 1, Origin := "A", Tombstone := true })] "k" 0 =
      (404, none) :=
  ⟨rfl,
    ((handleGet_visibility [("k", { Version := 1, Origin := "A", Tombstone := true })]
        "k" 0).2.1 { Version := 1, Origin := "A", Tombstone := true } rfl).1
      (Or.inl rfl)⟩

/-- C6: `HardDeleteExpired` removes exactly the tombstoned Entries whose
version timestamp is more than `tombstoneTTL` before `now` and the
non-tombstone Entries whose expiry is in the past; every other Entry
remains physically present and unchanged. -/
theorem HardDeleteExpired_spec (s : Store) (now tombstoneTTL : Int)
    (key : String) (v : Item) :
    (key, v) ∈ Store.HardDeleteExpired s now tombstoneTTL ↔
      ((key, v) ∈ s ∧
        ¬ (v.Tombstone = true ∧ tombstoneTTL < now - v.Version) ∧
        ¬ (v.Tombstone = false ∧ v.expired now = true)) := by
  cases ht : v.Tombstone <;> cases he : v.expired now <;>
    by_cases hc : tombstoneTTL < now - v.Version <;>
      simp [Store.HardDeleteExpired, List.mem_filter, ht, he, hc]

/-- C7: `Replicate` with an empty active peer set and (`minAcks > 0` or
`full`) fails immediately with the "no peers available" error and
`acked = 0, total = 0`; with an empty peer set and no demanded
acknowledgement it returns immediately with no error; otherwise the
acknowledgement target is `total` when `full` and `min(minAcks, total)`
clamped to be non-negative when not. -/
theorem replicateSetup_spec (numPeers : Nat) (minAcks : Int) (full : Bool) :
    (numPeers = 0 → (0 < minAcks ∨ full = true) →
      replicateSetup numPeers minAcks full = RepSetup.fail 0 0 RepError.noPeers ∧
      RepError.noPeers.message = "no peers available" ∧
      ∀ arrivals, Replicate numPeers minAcks full arrivals =
        (0, 0, some RepError.noPeers))
  ∧ (numPeers = 0 → ¬ (0 < minAcks) → full = false →
      replicateSetup numPeers minAcks full = RepSetup.done 0 0)
  ∧ (0 < numPeers →
      replicateSetup numPeers minAcks full =
        RepSetup.dispatch
          (if full then numPeers else (Min.min minAcks (numPeers : Int)).toNat)
          numPeers) := by
  refine ⟨?_, ?_, ?_⟩
  · intro h0 hcond
    subst h0
    have hs : replicateSetup 0 minAcks full = RepSetup.fail 0 0 RepError.noPeers := by
      simp [replicateSetup, hcond]
    exact ⟨hs, rfl, fun arrivals => by simp [Replicate, hs]⟩
  · intro h0 h1 h2
    subst h0
    simp [replicateSetup, h1, h2]
  · intro hpos
    have hne : numPeers ≠ 0 := by omega
    simp only [replicateSetup, hne, ite_false]
    congr 1
    cases full
    · simp only [Bool.false_eq_true, ite_false, Int.min_def]
      split_ifs <;> omega
    · simp only [ite_true]
      split_ifs <;> omega

theorem replicateSetup_spec_witness :
    (0 : Nat) = 0 ∧ ((0 : Int) < 1 ∨ false = true) ∧
    replicateSetup 0 1 false = RepSetup.fail 0 0 RepError.noPeers :=
  ⟨rfl, Or.inl (by decide),
    ((replicateSetup_spec 0 1 false).1 rfl (Or.inl (by decide))).1⟩

/-- C1 (counterexample): a `Replicate` call that reaches its target before
the deadline does not always return a nil error — a delivery failure
collected before the target is reached is returned as the error even
though the target was met. -/
theorem Replicate_quorum_cex :
    replicateSetup 2 1 false = RepSetup.dispatch 1 2 ∧
    Replicate 2 1 false [Res.fail "boom", Res.ok] =
      (1, 2, some (RepError.peer "boom")) :=
  ⟨by decide, by decide⟩

/-- C1 (amended): when the collection loop reaches its computed target
before the deadline, `Replicate` returns `acked = target` and, as its
error, the first failed delivery result collected before the target was
reached — nil exactly when every collected result was an acknowledgement;
outstanding or uncollected deliveries do not affect the return. -/
theorem Replicate_reach_target (numPeers : Nat) (minAcks : Int) (full : Bool)
    (arrivals : List Res) (target total : Nat)
    (hsetup : replicateSetup numPeers minAcks full = RepSetup.dispatch target total)
    (hreach : target ≤ (Replicate numPeers minAcks full arrivals).1) :
    (Replicate numPeers minAcks full arrivals).1 = target ∧
    (Replicate numPeers minAcks full arrivals).2.2 =
      firstFail (consumed target 0 arrivals) := by
  have hrep : Replicate numPeers minAcks full arrivals =
      ((collectLoop target total 0 none arrivals).1, total,
        (collectLoop target total 0 none arrivals).2) := by
    simp [Replicate, hsetup]
  rw [hrep] at hreach ⊢
  exact ⟨le_antisymm (collectLoop_fst_le target total arrivals 0 none (Nat.zero_le _))
      hreach,
    collectLoop_err_none target total arrivals 0 hreach⟩

theorem Replicate_reach_target_witness :
    replicateSetup 1 1 false = RepSetup.dispatch 1 1 ∧
    1 ≤ (Replicate 1 1 false [Res.ok]).1 ∧
    (Replicate 1 1 false [Res.ok]).2.2 = firstFail (consumed 1 0 [Res.ok]) :=
  ⟨by decide, by decide,
    (Replicate_reach_target 1 1 false [Res.ok] 1 1 (by decide) (by decide)).2⟩

/-- C2 (counterexample): on the DELETE path a stale local apply does not
suppress replication — the local `Store.Put` of the tombstone is rejected
(applied = false) yet `handleDelete` still issues the replication call. -/
theorem stale_delete_replicates_cex :
    (Store.Put [("k", { Version := 10, Origin := "B" })] "k"
        { Version := 5, Origin := "A", Tombstone := true }).2 = false ∧
    Effect.replicateCall { Op := "del", Key := "k", Version := 5, Origin := "A" }
        0 false ∈
      (handleDelete [("k", { Version := 10, Origin := "B" })] "k" 0 false "A" 5 0
          []).effects :=
  ⟨by decide, by decide⟩

/-- C2 (amended): on the PUT path a stale local apply (Put returns
applied = false) yields 409, leaves the store unchanged and performs no
replication; the DELETE path ignores the local Put result and always
issues the replication call. -/
theorem stale_write_paths (s : Store) (key : String) (body : List Nat) (ttl : Int)
    (minRep : Int) (full : Bool) (nodeId : String) (now : Int) (numPeers : Nat)
    (arrivals : List Res) :
    ((Store.Put s key
        { Value := body, Version := now, Origin := nodeId,
          ExpiresAt := if 0 < ttl then some (now + ttl) else none }).2 = false →
      (handlePut s key body ttl minRep full nodeId now numPeers arrivals).status = 409
      ∧ (handlePut s key body ttl minRep full nodeId now numPeers arrivals).store = s
      ∧ ∀ m mi mf, Effect.replicateCall m mi mf ∉
          (handlePut s key body ttl minRep full nodeId now numPeers arrivals).effects)
  ∧ Effect.replicateCall { Op := "del", Key := key, Version := now, Origin := nodeId }
        minRep full ∈
      (handleDelete s key minRep full nodeId now numPeers arrivals).effects := by
  constructor
  · intro h
    refine ⟨?_, ?_, ?_⟩ <;> simp [handlePut, h, Put_snd_false_eq h]
  · cases hrep : (Replicate numPeers minRep full arrivals).2.2 <;>
      simp [handleDelete, hrep]

theorem stale_write_paths_witness :
    (Store.Put [("k", { Version := 10, Origin := "B" })] "k"
        { Value := [], Version := 5, Origin := "A",
          ExpiresAt := if (0 : Int) < 0 then some (5 + 0) else none }).2 = false ∧
    (handlePut [("k", { Version := 10, Origin := "B" })] "k" [] 0 0 false "A" 5 0
        []).status = 409 :=
  ⟨by decide,
    ((stale_write_paths [("k", { Version := 10, Origin := "B" })] "k" [] 0 0 false
        "A" 5 0 []).1 (by decide)).1⟩

/-- C8: applying an inbound sync message (`handleSync` with op "set" or
"del") never issues a replication call: its only state effect is the
single `Store.Put` of the translated Entry, and it answers 204. -/
theorem handleSync_one_hop (s : Store) (msg : SyncMsg)
    (h : msg.Op = "set" ∨ msg.Op = "del") :
    (∀ m mi mf, Effect.replicateCall m mi mf ∉ (handleSync s msg).effects)
  ∧ (msg.Op = "set" →
      (handleSync s msg).store =
        (Store.Put s msg.Key
          { Value := msg.Value, ExpiresAt := msg.ExpiresAt,
            Version := msg.Version, Origin := msg.Origin }).1
      ∧ (handleSync s msg).effects =
          [Effect.storePut msg.Key
            { Value := msg.Value, ExpiresAt := msg.ExpiresAt,
              Version := msg.Version, Origin := msg.Origin }])
  ∧ (msg.Op = "del" →
      (handleSync s msg).store =
        (Store.Put s msg.Key
          { Version := msg.Version, Origin := msg.Origin, Tombstone := true }).1
      ∧ (handleSync s msg).effects =
          [Effect.storePut msg.Key
            { Version := msg.Version, Origin := msg.Origin, Tombstone := true }])
  ∧ (handleSync s msg).status = 204 := by
  rcases h with h | h
  · refine ⟨?_, ?_, ?_, ?_⟩
    · intro m mi mf; simp [handleSync, h]
    · intro _; constructor <;> simp [handleSync, h]
    · intro hd; rw [h] at hd; exact absurd hd (by decide)
    · simp [handleSync, h]
  · refine ⟨?_, ?_, ?_, ?_⟩
    · intro m mi mf; simp [handleSync, h]
    · intro hs2; rw [h] at hs2; exact absurd hs2 (by decide)
    · intro _; constructor <;> simp [handleSync, h]
    · simp [handleSync, h]

theorem handleSync_one_hop_witness :
    (({ Op := "set", Key := "k", Value := [7], Version := 1, Origin := "X" } : SyncMsg).Op = "set" ∨
      ({ Op := "set", Key := "k", Value := [7], Version := 1, Origin := "X" } : SyncMsg).Op = "del") ∧
    (handleSync [] { Op := "set", Key := "k", Value := [7], Version := 1, Origin := "X" }).status = 204 :=
  ⟨Or.inl rfl,
    (handleSync_one_hop []
      { Op := "set", Key := "k", Value := [7], Version := 1, Origin := "X" }
      (Or.inl rfl)).2.2.2⟩

/-- C9: the store keeps exactly one Entry per key (Put and the sweep
preserve key uniqueness), and any node that has received the latest write
`m` for a key — every delivered Item being either `m` or strictly below it
in `(Version, Origin)` order — holds exactly `m` for that key afterwards,
whatever the delivery order: once the same latest write has reached all
nodes they agree on the maximal Entry. -/
theorem lww_single_entry_convergence :
    (∀ (s : Store) (key : String) (i : Item),
        (keys s).Nodup → (keys (Store.Put s key i).1).Nodup)
  ∧ (∀ (s : Store) (now ttl : Int),
        (keys s).Nodup → (keys (Store.HardDeleteExpired s now ttl)).Nodup)
  ∧ (∀ (key : String) (m : Item) (l : List Item),
        m ∈ l → (∀ i ∈ l, i = m ∨ lwwGt m i) →
        ∀ s : Store, (∀ c, Store.Get s key = some c → c = m ∨ lwwGt m c) →
          Store.Get (applyAll key l s) key = some m) :=
  ⟨fun _ key i h => keys_nodup_Put key i h,
   fun _ now ttl h => keys_nodup_HardDeleteExpired now ttl h,
   fun _ _ l hm hl s hs => applyAll_reaches l hm hl s hs⟩

theorem lww_single_entry_convergence_witness :
    (({ Version := 3, Origin := "A" } : Item) ∈
      [({ Version := 3, Origin := "A" } : Item)]) ∧
    Store.Get (applyAll "k" [{ Version := 3, Origin := "A" }] []) "k" =
      some { Version := 3, Origin := "A" } :=
  ⟨List.mem_singleton.mpr rfl,
    lww_single_entry_convergence.2.2 "k" { Version := 3, Origin := "A" }
      [{ Version := 3, Origin := "A" }] (List.mem_singleton.mpr rfl)
      (fun i hi => Or.inl (List.mem_singleton.mp hi)) []
      (fun c hc => by simp [Store.Get] at hc)⟩

/-- C10: an HTTP DELETE on a key with no current Entry is not an error:
the tombstone Item is applied by the first-write branch of `Store.Put`,
the handler's resulting store holds the tombstone, and when replication
reports no error the response is 204. -/
theorem delete_missing_key_spec (s : Store) (key : String) (minRep : Int)
    (full : Bool) (nodeId : String) (now : Int) (numPeers : Nat)
    (arrivals : List Res) (h : Store.Get s key = none) :
    (Store.Put s key { Version := now, Origin := nodeId, Tombstone := true }).2 = true
  ∧ Store.Get (handleDelete s key minRep full nodeId now numPeers arrivals).store
      key = some { Version := now, Origin := nodeId, Tombstone := true }
  ∧ ((Replicate numPeers minRep full arrivals).2.2 = none →
      (handleDelete s key minRep full nodeId now numPeers arrivals).status = 204) := by
  have hput :=
    @Put_of_get_none s key { Version := now, Origin := nodeId, Tombstone := true } h
  refine ⟨by rw [hput], ?_, ?_⟩
  · have hget : Store.Get
        (Store.Put s key { Version := now, Origin := nodeId, Tombstone := true }).1
        key = some { Version := now, Origin := nodeId, Tombstone := true } :=
      Put_get_self (by rw [hput])
    cases hrep : (Replicate numPeers minRep full arrivals).2.2 <;>
      simpa [handleDelete, hrep] using hget
  · intro hrep
    simp [handleDelete, hrep]

theorem delete_missing_key_spec_witness :
    Store.Get ([] : Store) "k" = none ∧
    (handleDelete [] "k" 0 false "A" 7 0 []).status = 204 :=
  ⟨rfl, (delete_missing_key_spec [] "k" 0 false "A" 7 0 [] rfl).2.2 rfl⟩

